import Mathlib

/- Shallow embedding of src/src/SFML/Network/TcpSocket.cpp.

   Bytes are modelled as natural numbers and byte buffers as lists of
   naturals. The raw transport (the OS socket) is modelled by explicit
   event schedules: every transport-level send/recv system call consumes
   exactly one event describing the outcome the OS reports for that call.
   An exhausted schedule behaves as a would-block condition (the socket
   has nothing further to report right now), which is the NotReady error
   status of priv::SocketImpl::getErrorStatus(). -/

namespace SfmlTcp

/-- Socket status codes (sf::Socket::Status). -/
inductive Status where
  | Done
  | NotReady
  | Partial
  | Disconnected
  | Error
deriving DecidableEq

/-- Big-endian wire encoding of a 32-bit length value: htonl followed by a
byte-wise copy of the 4-byte integer into the block to send
(TcpSocket::send(Packet&), lines 329 and 337). -/
def htonlBytes (v : Nat) : List Nat :=
  [v / 2 ^ 24 % 256, v / 2 ^ 16 % 256, v / 2 ^ 8 % 256, v % 256]

/-- Decoding of the 4 wire-order bytes of the length field by ntohl
(TcpSocket::receive(Packet&), lines 395 and 400). A list that is not
exactly 4 bytes long decodes to 0; the code only decodes a full field. -/
def ntohlBytes : List Nat → Nat
  | [b0, b1, b2, b3] => b0 * 2 ^ 24 + b1 * 2 ^ 16 + b2 * 2 ^ 8 + b3
  | _ => 0

/-- Outcome of one transport-level ::send call: the OS either accepts up
to k bytes of the requested range (the call returns the accepted count),
or the call returns -1 and getErrorStatus() yields the carried status. -/
inductive SendEvent where
  | accept (k : Nat)
  | errneg (s : Status)
deriving DecidableEq

/-- Loop body of TcpSocket::send(const std::byte*, std::size_t, std::size_t&),
lines 246-271: keep issuing ::send calls, advancing `sent` by each call's
reported count, until everything is sent or an error occurs. A would-block
error after at least one byte was sent in this call is reported as Partial.
Results are (status, sent, bytes put on the wire, remaining schedule). -/
def sendLoop (data : List Nat) (sent : Nat) (events : List SendEvent) :
    Status × Nat × List Nat × List SendEvent :=
  if sent < data.length then
    match events with
    | [] => ((if 0 < sent then Status.Partial else Status.NotReady), sent, [], [])
    | SendEvent.accept k :: rest =>
        let chunk := (data.drop sent).take k
        let r := sendLoop data (sent + chunk.length) rest
        (r.1, r.2.1, chunk ++ r.2.2.1, r.2.2.2)
    | SendEvent.errneg s :: rest =>
        if s = Status.NotReady ∧ 0 < sent then (Status.Partial, sent, [], rest)
        else (s, sent, [], rest)
  else (Status.Done, sent, [], events)

/-- TcpSocket::send(const std::byte*, std::size_t, std::size_t&), lines
237-272: reject a null pointer or a zero length as Error without touching
the transport, otherwise loop until every byte is accounted for. -/
def sendAll (dataNull : Bool) (data : List Nat) (events : List SendEvent) :
    Status × Nat × List Nat × List SendEvent :=
  if dataNull ∨ data.length = 0 then (Status.Error, 0, [], events)
  else sendLoop data 0 events

/-- The sf::Packet collaborator, reduced to what TcpSocket uses: onSend
exposes (payload pointer, length), onReceive ingests a received payload,
and m_sendPos is the resume offset for partial sends. -/
structure Packet where
  payload : List Nat
  sendPos : Nat
deriving DecidableEq

/-- Modelled from the spec: Packet::clear (the message collaborator's
source is not part of this repository) empties the message's payload. -/
def packetClear (p : Packet) : Packet :=
  { p with payload := [] }

/-- Modelled from the spec: Packet::onReceive (the message collaborator's
source is not part of this repository) ingests a fully received payload by
appending it to the message's data. -/
def packetOnReceive (p : Packet) (bs : List Nat) : Packet :=
  { p with payload := p.payload ++ bs }

/-- A fresh, empty packet. -/
def emptyPacket : Packet := ⟨[], 0⟩

/-- TcpSocket::send(Packet&), lines 313-368: build one contiguous block
equal to the 4-byte big-endian size prefix (the size cast to uint32)
followed by the payload, send it through the raw send primitive starting
at the packet's resume offset, then update the resume offset: advance it
by the reported count on Partial, reset it on Done, leave it otherwise.
Results are (status, updated packet, wire bytes, remaining schedule). -/
def sendPacket (p : Packet) (events : List SendEvent) :
    Status × Packet × List Nat × List SendEvent :=
  let size := p.payload.length
  let block := htonlBytes (size % 2 ^ 32) ++ p.payload
  let r := sendAll false (block.drop p.sendPos) events
  let p' :=
    if r.1 = Status.Partial then { p with sendPos := p.sendPos + r.2.1 }
    else if r.1 = Status.Done then { p with sendPos := 0 }
    else p
  (r.1, p', r.2.2.1, r.2.2.2)

/-- Outcome of one transport-level recv call: the OS either has up to k
bytes of the incoming stream ready (the call returns how many of them fit
the request), or reports an orderly close (recv returns 0), or the call
returns -1 and getErrorStatus() yields the carried status (NotReady,
Disconnected or Error for a real socket). -/
inductive RecvEvent where
  | avail (k : Nat)
  | close
  | errneg (s : Status)
deriving DecidableEq

/-- Receive side of the transport: the bytes still in transit toward this
socket, and the outcome schedule for successive recv calls. -/
structure RecvState where
  stream : List Nat
  events : List RecvEvent
deriving DecidableEq

/-- TcpSocket::receive(void*, std::size_t, std::size_t&), lines 276-309:
clear the received count, reject a null destination as Error without any
transport call, otherwise issue exactly one recv call and map its raw
return value: a strictly positive count is Done with those bytes, zero is
Disconnected, negative is the translated error status. Results are
(status, received bytes, transport state after the call). -/
def receiveChunk (dataNull : Bool) (size : Nat) (st : RecvState) :
    Status × List Nat × RecvState :=
  if dataNull then (Status.Error, [], st)
  else
    match st.events with
    | [] => (Status.NotReady, [], st)
    | RecvEvent.avail k :: rest =>
        let chunk := (st.stream.take size).take k
        if 0 < chunk.length then
          (Status.Done, chunk, ⟨st.stream.drop chunk.length, rest⟩)
        else (Status.Disconnected, [], ⟨st.stream, rest⟩)
    | RecvEvent.close :: rest => (Status.Disconnected, [], ⟨st.stream, rest⟩)
    | RecvEvent.errneg s :: rest => (s, [], ⟨st.stream, rest⟩)

/-- TcpSocket::PendingPacket: sizeBytes holds the wire-order bytes of the
Size field received so far (SizeReceived is its length, 0..4), and data
accumulates the payload bytes of the current message. -/
structure PendingPacket where
  sizeBytes : List Nat
  data : List Nat
deriving DecidableEq

/-- A fresh PendingPacket, as built by the default constructor. -/
def emptyPending : PendingPacket := ⟨[], []⟩

/-- Size-field loop of TcpSocket::receive(Packet&), lines 380-396: while
fewer than 4 size bytes have been collected, issue chunk receives for the
remaining size bytes, appending each chunk and adding its count to
SizeReceived; any non-Done chunk status aborts with that status. Each
chunk call consumes exactly the head transport event, so the loop recurses
on the schedule's tail. Results are (status, pending state, stream,
remaining schedule). -/
def sizeLoop (pp : PendingPacket) (stream : List Nat) (events : List RecvEvent) :
    Status × PendingPacket × List Nat × List RecvEvent :=
  if pp.sizeBytes.length < 4 then
    match events with
    | [] =>
        let r := receiveChunk false (4 - pp.sizeBytes.length) ⟨stream, []⟩
        (r.1, { pp with sizeBytes := pp.sizeBytes ++ r.2.1 }, r.2.2.stream, r.2.2.events)
    | ev :: rest =>
        let r := receiveChunk false (4 - pp.sizeBytes.length) ⟨stream, ev :: rest⟩
        let pp' := { pp with sizeBytes := pp.sizeBytes ++ r.2.1 }
        if r.1 = Status.Done then sizeLoop pp' r.2.2.stream rest
        else (r.1, pp', r.2.2.stream, rest)
  else (Status.Done, pp, stream, events)

/-- Payload loop of TcpSocket::receive(Packet&), lines 403-420: while the
accumulated data is shorter than the decoded packet size, issue chunk
receives bounded by min(remaining, 1024); any non-Done chunk status aborts
with that status before anything is appended. Each chunk call consumes
exactly the head transport event, so the loop recurses on the schedule's
tail. Results are (status, pending state, stream, remaining schedule). -/
def dataLoop (packetSize : Nat) (pp : PendingPacket) (stream : List Nat)
    (events : List RecvEvent) :
    Status × PendingPacket × List Nat × List RecvEvent :=
  if pp.data.length < packetSize then
    let sizeToGet := min (packetSize - pp.data.length) 1024
    match events with
    | [] =>
        let r := receiveChunk false sizeToGet ⟨stream, []⟩
        (r.1, pp, r.2.2.stream, r.2.2.events)
    | ev :: rest =>
        let r := receiveChunk false sizeToGet ⟨stream, ev :: rest⟩
        if r.1 = Status.Done then
          dataLoop packetSize { pp with data := pp.data ++ r.2.1 } r.2.2.stream rest
        else (r.1, pp, r.2.2.stream, rest)
  else (Status.Done, pp, stream, events)

/-- TcpSocket::receive(Packet&), lines 372-430: clear the caller's packet,
collect the 4 size bytes (resuming any partial size), decode the size with
ntohl, collect the payload, and on completion hand the data to the packet
and reset the pending state. Any non-Done chunk status is returned as the
call's status. Results are (status, caller's packet, pending state,
stream, remaining schedule). -/
def receivePacket (pkt : Packet) (pp : PendingPacket) (stream : List Nat)
    (events : List RecvEvent) :
    Status × Packet × PendingPacket × List Nat × List RecvEvent :=
  let pkt0 := packetClear pkt
  match sizeLoop pp stream events with
  | (st1, pp1, stream1, events1) =>
    if st1 ≠ Status.Done then (st1, pkt0, pp1, stream1, events1)
    else
      let packetSize := ntohlBytes pp1.sizeBytes
      match dataLoop packetSize pp1 stream1 events1 with
      | (st2, pp2, stream2, events2) =>
        if st2 ≠ Status.Done then (st2, pkt0, pp2, stream2, events2)
        else
          let pkt1 := if pp2.data ≠ [] then packetOnReceive pkt0 pp2.data else pkt0
          (Status.Done, pkt1, emptyPending, stream2, events2)

/-- Driver for the caller-side retry pattern: invoke receivePacket once
per per-call transport schedule until a call reports Done, threading the
packet, the pending state and the stream through the calls. Results are
(status, packet, pending state, stream). -/
def receiveMulti (pkt : Packet) (pp : PendingPacket) (stream : List Nat) :
    List (List RecvEvent) → Status × Packet × PendingPacket × List Nat
  | [] => (Status.NotReady, pkt, pp, stream)
  | evs :: scheds =>
      match receivePacket pkt pp stream evs with
      | (st, pkt', pp', stream', _) =>
        if st = Status.Done then (Status.Done, pkt', pp', stream')
        else receiveMulti pkt' pp' stream' scheds

/-- Outcome of the raw ::connect call: immediate success (return value
not negative) or failure with the status getErrorStatus() translates the
pending error to. -/
inductive ConnectAttempt where
  | success
  | fail (errStatus : Status)
deriving DecidableEq

/-- Environment of one TcpSocket::connect call: the raw connect outcome,
whether select reports the socket writable before the timeout, whether
getpeername can retrieve the remote address afterwards, and the statuses
getErrorStatus() yields on the refused and on the timed-out paths. -/
structure ConnectEnv where
  attempt : ConnectAttempt
  selectPositive : Bool
  remoteRetrievable : Bool
  refusedStatus : Status
  timeoutStatus : Status
deriving DecidableEq

/-- Observable outcome of TcpSocket::connect: the returned status, the
blocking flag when the call returns, the arguments of every setBlocking
call made, and the (tv_sec, tv_usec) timeout of every select call made. -/
structure ConnectResult where
  status : Status
  blocking : Bool
  setBlockingCalls : List Bool
  selectCalls : List (Int × Int)
deriving DecidableEq

/-- TcpSocket::connect(const IpAddress&, unsigned short, Time), lines
121-210, from after address setup. With no positive timeout: one blocking
connect attempt, success or translated error. With a positive timeout:
remember the blocking flag, force non-blocking, attempt; on immediate
success restore the flag; on failure return at once if the caller was
non-blocking, otherwise on NotReady wait with select for the caller's
timeout (tv_sec = us / 1000000, tv_usec = us % 1000000) and decide
Done/refused by whether the remote address is retrievable; finally switch
back to blocking mode. The timeout is timeoutUs microseconds. -/
def connect (blocking0 : Bool) (timeoutUs : Int) (env : ConnectEnv) : ConnectResult :=
  if timeoutUs ≤ 0 then
    match env.attempt with
    | ConnectAttempt.success => ⟨Status.Done, blocking0, [], []⟩
    | ConnectAttempt.fail s => ⟨s, blocking0, [], []⟩
  else
    let calls0 : List Bool := if blocking0 then [false] else []
    match env.attempt with
    | ConnectAttempt.success => ⟨Status.Done, blocking0, calls0 ++ [blocking0], []⟩
    | ConnectAttempt.fail s =>
      if ¬ blocking0 then ⟨s, false, calls0, []⟩
      else if s = Status.NotReady then
        let tv : Int × Int := (timeoutUs / 1000000, timeoutUs % 1000000)
        if env.selectPositive then
          if env.remoteRetrievable then ⟨Status.Done, true, calls0 ++ [true], [tv]⟩
          else ⟨env.refusedStatus, true, calls0 ++ [true], [tv]⟩
        else ⟨env.timeoutStatus, true, calls0 ++ [true], [tv]⟩
      else ⟨s, true, calls0 ++ [true], []⟩

/-- Well-formedness of the pending reassembly state: at most 4 size
bytes; no payload data before the size field is complete; once the size
field is complete, the data never exceeds the decoded length. -/
def GoodPending (pp : PendingPacket) : Prop :=
  pp.sizeBytes.length ≤ 4 ∧
  (pp.sizeBytes.length < 4 → pp.data = []) ∧
  (pp.sizeBytes.length = 4 → pp.data.length ≤ ntohlBytes pp.sizeBytes)

/-- Mid-reassembly relation between the pending state plus the bytes still
in transit and the message being transferred: together they are exactly
the wire form of the message, the size field is at most 4 bytes, and no
data is accumulated before the size field is complete. -/
def msgInv (payload : List Nat) (pp : PendingPacket) (s : List Nat) : Prop :=
  pp.sizeBytes ++ pp.data ++ s = htonlBytes payload.length ++ payload ∧
  pp.sizeBytes.length ≤ 4 ∧
  (pp.sizeBytes.length < 4 → pp.data = [])

/-- Well-formedness of a send schedule event: the status carried by a
failed ::send call is one that priv::SocketImpl::getErrorStatus() can
translate an errno to, namely NotReady, Disconnected or Error. -/
def SendEventOk : SendEvent → Prop
  | SendEvent.errneg s =>
      s = Status.NotReady ∨ s = Status.Disconnected ∨ s = Status.Error
  | _ => True

/- General-purpose lemmas. -/

theorem htonlBytes_length (v : Nat) : (htonlBytes v).length = 4 := rfl

theorem ntohl_htonl (v : Nat) : ntohlBytes (htonlBytes v) = v % 2 ^ 32 := by
  simp only [htonlBytes, ntohlBytes]
  omega

theorem ntohl_htonl_of_lt (v : Nat) (h : v < 2 ^ 32) :
    ntohlBytes (htonlBytes v) = v := by
  rw [ntohl_htonl, Nat.mod_eq_of_lt h]

theorem take_min_length (s : List Nat) (m : Nat) :
    s.take m = s.take (min m s.length) := by
  rcases Nat.le_total m s.length with h | h
  · rw [Nat.min_eq_left h]
  · rw [Nat.min_eq_right h, List.take_of_length_le h, List.take_of_length_le le_rfl]

/- Unfolding equations for the recursive loop functions, stated one
transport event at a time. -/

theorem sendLoop_nil (data : List Nat) (sent : Nat) :
    sendLoop data sent [] =
      if sent < data.length then
        ((if 0 < sent then Status.Partial else Status.NotReady), sent, [], [])
      else (Status.Done, sent, [], []) := by
  rw [sendLoop.eq_def]

theorem sendLoop_accept (data : List Nat) (sent k : Nat) (rest : List SendEvent) :
    sendLoop data sent (SendEvent.accept k :: rest) =
      if sent < data.length then
        ((sendLoop data (sent + ((data.drop sent).take k).length) rest).1,
         (sendLoop data (sent + ((data.drop sent).take k).length) rest).2.1,
         (data.drop sent).take k ++
           (sendLoop data (sent + ((data.drop sent).take k).length) rest).2.2.1,
         (sendLoop data (sent + ((data.drop sent).take k).length) rest).2.2.2)
      else (Status.Done, sent, [], SendEvent.accept k :: rest) := by
  rw [sendLoop.eq_def]

theorem sendLoop_errneg (data : List Nat) (sent : Nat) (s : Status) (rest : List SendEvent) :
    sendLoop data sent (SendEvent.errneg s :: rest) =
      if sent < data.length then
        if s = Status.NotReady ∧ 0 < sent then (Status.Partial, sent, [], rest)
        else (s, sent, [], rest)
      else (Status.Done, sent, [], SendEvent.errneg s :: rest) := by
  rw [sendLoop.eq_def]

/- Lemmas about the raw send loop. -/

theorem sendLoop_sent_eq_wire (data : List Nat) (sent : Nat) (events : List SendEvent) :
    (sendLoop data sent events).2.1 = sent + (sendLoop data sent events).2.2.1.length := by
  induction events generalizing sent with
  | nil => rw [sendLoop_nil]; split <;> simp
  | cons ev rest ih =>
      cases ev with
      | accept k =>
          rw [sendLoop_accept]
          split
          · rw [ih]
            simp only [List.length_append]
            omega
          · simp
      | errneg s =>
          rw [sendLoop_errneg]
          split
          · split <;> simp
          · simp

theorem sendLoop_partial_bounds (data : List Nat) (sent : Nat) (events : List SendEvent)
    (hok : ∀ ev ∈ events, SendEventOk ev)
    (h : (sendLoop data sent events).1 = Status.Partial) :
    0 < (sendLoop data sent events).2.1 ∧ (sendLoop data sent events).2.1 < data.length := by
  induction events generalizing sent with
  | nil =>
      rw [sendLoop_nil] at h ⊢
      by_cases h1 : sent < data.length
      · rw [if_pos h1] at h ⊢
        by_cases h2 : 0 < sent
        · exact ⟨h2, h1⟩
        · rw [if_neg h2] at h
          simp at h
      · rw [if_neg h1] at h
        simp at h
  | cons ev rest ih =>
      have hokr : ∀ e ∈ rest, SendEventOk e := fun e he => hok e (List.mem_cons_of_mem _ he)
      cases ev with
      | accept k =>
          rw [sendLoop_accept] at h ⊢
          by_cases h1 : sent < data.length
          · rw [if_pos h1] at h ⊢
            exact ih _ hokr h
          · rw [if_neg h1] at h
            simp at h
      | errneg s =>
          have hs := hok _ (List.mem_cons_self _ _)
          rw [sendLoop_errneg] at h ⊢
          by_cases h1 : sent < data.length
          · rw [if_pos h1] at h ⊢
            by_cases h2 : s = Status.NotReady ∧ 0 < sent
            · rw [if_pos h2] at h ⊢
              exact ⟨h2.2, h1⟩
            · rw [if_neg h2] at h ⊢
              simp only [SendEventOk] at hs
              have hsp : s = Status.Partial := h
              rcases hs with h' | h' | h' <;> simp [h'] at hsp
          · rw [if_neg h1] at h
            simp at h

theorem take_append_drop_take (l : List Nat) (k : Nat) :
    l.take k ++ l.drop (l.take k).length = l := by
  have h1 : l.drop (l.take k).length = l.drop k := by
    rcases Nat.le_total k l.length with hk | hk
    · rw [List.length_take, Nat.min_eq_left hk]
    · rw [List.drop_of_length_le hk, List.drop_of_length_le]
      rw [List.length_take]
      omega
  rw [h1, List.take_append_drop]

theorem sendLoop_done_of_sum (data : List Nat) (ks : List Nat) (sent : Nat)
    (h1 : sent ≤ data.length) (h2 : data.length ≤ sent + ks.sum) :
    ∃ evs', sendLoop data sent (ks.map SendEvent.accept) =
      (Status.Done, data.length, data.drop sent, evs') := by
  induction ks generalizing sent with
  | nil =>
      have hse : sent = data.length := by simpa using Nat.le_antisymm h1 h2
      subst hse
      exact ⟨[], by simp only [List.map_nil]; rw [sendLoop_nil]; simp⟩
  | cons k ks ih =>
      rw [List.map_cons, sendLoop_accept]
      by_cases hlt : sent < data.length
      · rw [if_pos hlt]
        have hclen : ((data.drop sent).take k).length = min k (data.length - sent) := by
          simp [List.length_take, List.length_drop]
        have ha : sent + ((data.drop sent).take k).length ≤ data.length := by omega
        have hb : data.length ≤ sent + ((data.drop sent).take k).length + ks.sum := by
          simp only [List.sum_cons] at h2
          omega
        obtain ⟨evs', hrec⟩ := ih (sent + ((data.drop sent).take k).length) ha hb
        refine ⟨evs', ?_⟩
        rw [hrec]
        have hjoin : (data.drop sent).take k ++
            data.drop (sent + ((data.drop sent).take k).length) = data.drop sent := by
          rw [← List.drop_drop]
          exact take_append_drop_take (data.drop sent) k
        rw [hjoin]
      · have hse : sent = data.length := by omega
        subst hse
        exact ⟨SendEvent.accept k :: ks.map SendEvent.accept, by simp [hlt]⟩

/- Lemmas about the raw chunk receive. -/

theorem receiveChunk_nil (n : Nat) (s : List Nat) :
    receiveChunk false n ⟨s, []⟩ = (Status.NotReady, [], ⟨s, []⟩) := rfl

theorem receiveChunk_avail (n k : Nat) (s : List Nat) (rest : List RecvEvent) :
    receiveChunk false n ⟨s, RecvEvent.avail k :: rest⟩ =
      if 0 < ((s.take n).take k).length then
        (Status.Done, (s.take n).take k, ⟨s.drop ((s.take n).take k).length, rest⟩)
      else (Status.Disconnected, [], ⟨s, rest⟩) := rfl

theorem receiveChunk_done_parts (n k : Nat) (s : List Nat) (rest : List RecvEvent)
    (hpos : 0 < ((s.take n).take k).length) :
    ∃ c, 0 < c.length ∧ c.length ≤ n ∧ c = s.take c.length ∧
      receiveChunk false n ⟨s, RecvEvent.avail k :: rest⟩ =
        (Status.Done, c, ⟨s.drop c.length, rest⟩) := by
  refine ⟨(s.take n).take k, hpos, ?_, ?_, by rw [receiveChunk_avail, if_pos hpos]⟩
  · simp only [List.length_take]
    omega
  · have hlen : ((s.take n).take k).length = min (min k n) s.length := by
      simp [List.take_take, List.length_take]
    rw [hlen, List.take_take, take_min_length s (min k n)]

theorem receiveChunk_cons_cases (n : Nat) (s : List Nat) (ev : RecvEvent)
    (rest : List RecvEvent) :
    (∃ c, 0 < c.length ∧ c.length ≤ n ∧ c = s.take c.length ∧
      receiveChunk false n ⟨s, ev :: rest⟩ = (Status.Done, c, ⟨s.drop c.length, rest⟩)) ∨
    (∃ st, receiveChunk false n ⟨s, ev :: rest⟩ = (st, [], ⟨s, rest⟩)) := by
  cases ev with
  | avail k =>
      by_cases hpos : 0 < ((s.take n).take k).length
      · exact Or.inl (receiveChunk_done_parts n k s rest hpos)
      · exact Or.inr ⟨Status.Disconnected, by rw [receiveChunk_avail, if_neg hpos]⟩
  | close => exact Or.inr ⟨Status.Disconnected, by simp [receiveChunk]⟩
  | errneg st => exact Or.inr ⟨st, by simp [receiveChunk]⟩

theorem receiveChunk_avail_done (n k : Nat) (s : List Nat) (rest : List RecvEvent)
    (hk : 1 ≤ k) (hn : 1 ≤ n) (hs : s ≠ []) :
    ∃ c, 0 < c.length ∧ c.length ≤ n ∧ c = s.take c.length ∧
      receiveChunk false n ⟨s, RecvEvent.avail k :: rest⟩ =
        (Status.Done, c, ⟨s.drop c.length, rest⟩) := by
  apply receiveChunk_done_parts
  have hslen : 0 < s.length := List.length_pos.mpr hs
  simp only [List.length_take]
  omega

/- Unfolding equations for the receive loops. -/

theorem sizeLoop_nil (pp : PendingPacket) (s : List Nat) :
    sizeLoop pp s [] =
      if pp.sizeBytes.length < 4 then (Status.NotReady, pp, s, [])
      else (Status.Done, pp, s, []) := by
  rw [sizeLoop.eq_def]
  split <;> simp [receiveChunk]

theorem sizeLoop_cons (pp : PendingPacket) (s : List Nat) (ev : RecvEvent)
    (rest : List RecvEvent) :
    sizeLoop pp s (ev :: rest) =
      if pp.sizeBytes.length < 4 then
        (if (receiveChunk false (4 - pp.sizeBytes.length) ⟨s, ev :: rest⟩).1 = Status.Done then
          sizeLoop
            { pp with sizeBytes :=
                pp.sizeBytes ++ (receiveChunk false (4 - pp.sizeBytes.length) ⟨s, ev :: rest⟩).2.1 }
            (receiveChunk false (4 - pp.sizeBytes.length) ⟨s, ev :: rest⟩).2.2.stream rest
        else
          ((receiveChunk false (4 - pp.sizeBytes.length) ⟨s, ev :: rest⟩).1,
           { pp with sizeBytes :=
               pp.sizeBytes ++ (receiveChunk false (4 - pp.sizeBytes.length) ⟨s, ev :: rest⟩).2.1 },
           (receiveChunk false (4 - pp.sizeBytes.length) ⟨s, ev :: rest⟩).2.2.stream, rest))
      else (Status.Done, pp, s, ev :: rest) := by
  rw [sizeLoop.eq_def]

theorem dataLoop_nil (packetSize : Nat) (pp : PendingPacket) (s : List Nat) :
    dataLoop packetSize pp s [] =
      if pp.data.length < packetSize then (Status.NotReady, pp, s, [])
      else (Status.Done, pp, s, []) := by
  rw [dataLoop.eq_def]
  split <;> simp [receiveChunk]

theorem dataLoop_cons (packetSize : Nat) (pp : PendingPacket) (s : List Nat)
    (ev : RecvEvent) (rest : List RecvEvent) :
    dataLoop packetSize pp s (ev :: rest) =
      if pp.data.length < packetSize then
        (if (receiveChunk false (min (packetSize - pp.data.length) 1024)
              ⟨s, ev :: rest⟩).1 = Status.Done then
          dataLoop packetSize
            { pp with data :=
                pp.data ++ (receiveChunk false (min (packetSize - pp.data.length) 1024)
                  ⟨s, ev :: rest⟩).2.1 }
            (receiveChunk false (min (packetSize - pp.data.length) 1024)
              ⟨s, ev :: rest⟩).2.2.stream rest
        else
          ((receiveChunk false (min (packetSize - pp.data.length) 1024) ⟨s, ev :: rest⟩).1,
           pp,
           (receiveChunk false (min (packetSize - pp.data.length) 1024)
             ⟨s, ev :: rest⟩).2.2.stream, rest))
      else (Status.Done, pp, s, ev :: rest) := by
  rw [dataLoop.eq_def]

/- Shape of a size-loop run over an arbitrary transport schedule: the
collected size bytes grow by exactly a front segment of the stream, the
data is untouched, the schedule shrinks by the number of chunk calls
made, and the loop reports Done exactly when the field is complete. -/

theorem sizeLoop_shape (events : List RecvEvent) (pp : PendingPacket) (s : List Nat)
    (h4 : pp.sizeBytes.length ≤ 4) :
    ∃ st b j, sizeLoop pp s events =
        (st, ⟨pp.sizeBytes ++ s.take b, pp.data⟩, s.drop b, events.drop j) ∧
      pp.sizeBytes.length + b ≤ 4 ∧ b ≤ s.length ∧ j ≤ events.length ∧
      (st = Status.Done ↔ pp.sizeBytes.length + b = 4) := by
  induction events generalizing pp s with
  | nil =>
      by_cases hlt : pp.sizeBytes.length < 4
      · refine ⟨Status.NotReady, 0, 0, ?_, by omega, Nat.zero_le _, by omega, ?_⟩
        · rw [sizeLoop_nil, if_pos hlt]
          simp
        · constructor
          · intro h'
            exact absurd h' (by simp)
          · intro h'
            omega
      · refine ⟨Status.Done, 0, 0, ?_, by omega, Nat.zero_le _, by omega,
          ⟨fun _ => by omega, fun _ => rfl⟩⟩
        rw [sizeLoop_nil, if_neg hlt]
        simp
  | cons ev rest ih =>
      by_cases hlt : pp.sizeBytes.length < 4
      · rcases receiveChunk_cons_cases (4 - pp.sizeBytes.length) s ev rest with
          ⟨c, hc0, hcn, hcs, hceq⟩ | ⟨st0, hceq⟩
        · have hcls : c.length ≤ s.length := by
            have hl := congrArg List.length hcs
            rw [List.length_take] at hl
            omega
          have hlen' : (pp.sizeBytes ++ c).length ≤ 4 := by
            simp only [List.length_append]
            omega
          obtain ⟨st, b, j, heq, hb, hbs, hj, hiff⟩ :=
            ih ⟨pp.sizeBytes ++ c, pp.data⟩ (s.drop c.length) hlen'
          refine ⟨st, c.length + b, j + 1, ?_, ?_, ?_, ?_, ?_⟩
          · rw [sizeLoop_cons, if_pos hlt, hceq]
            simp only [if_pos rfl]
            rw [heq]
            have htk : pp.sizeBytes ++ c ++ (s.drop c.length).take b
                = pp.sizeBytes ++ s.take (c.length + b) := by
              rw [List.take_add, List.append_assoc, ← hcs]
            have hdr : (s.drop c.length).drop b = s.drop (c.length + b) := by
              rw [List.drop_drop]
            simp [htk, hdr]
          · simp only [List.length_append] at hb
            omega
          · simp only [List.length_drop] at hbs
            omega
          · simp only [List.length_cons]
            omega
          · simp only [List.length_append] at hiff
            rw [hiff]
            omega
        · by_cases hd : st0 = Status.Done
          · subst hd
            obtain ⟨st, b, j, heq, hb, hbs, hj, hiff⟩ := ih pp s h4
            refine ⟨st, b, j + 1, ?_, hb, hbs,
              by simp only [List.length_cons]; omega, hiff⟩
            rw [sizeLoop_cons, if_pos hlt, hceq]
            simp only [if_pos rfl, List.append_nil]
            rw [show ({ pp with sizeBytes := pp.sizeBytes } : PendingPacket) = pp from rfl]
            rw [heq]
            simp
          · refine ⟨st0, 0, 1, ?_, by omega, Nat.zero_le _, by simp, ?_⟩
            · rw [sizeLoop_cons, if_pos hlt, hceq]
              simp [hd]
            · exact ⟨fun h' => absurd h' hd, fun h' => absurd h' (by omega)⟩
      · refine ⟨Status.Done, 0, 0, ?_, by omega, Nat.zero_le _, by simp,
          ⟨fun _ => by omega, fun _ => rfl⟩⟩
        rw [sizeLoop_cons, if_neg hlt]
        simp

/- Shape of a payload-loop run over an arbitrary transport schedule: the
data grows by exactly a front segment of the stream, never beyond the
decoded packet size, the size bytes are untouched, and the loop reports
Done exactly when the payload is complete. -/

theorem dataLoop_shape (packetSize : Nat) (events : List RecvEvent) (pp : PendingPacket)
    (s : List Nat) (hL : pp.data.length ≤ packetSize) :
    ∃ st b j, dataLoop packetSize pp s events =
        (st, ⟨pp.sizeBytes, pp.data ++ s.take b⟩, s.drop b, events.drop j) ∧
      pp.data.length + b ≤ packetSize ∧ b ≤ s.length ∧ j ≤ events.length ∧
      (st = Status.Done ↔ pp.data.length + b = packetSize) := by
  induction events generalizing pp s with
  | nil =>
      by_cases hlt : pp.data.length < packetSize
      · refine ⟨Status.NotReady, 0, 0, ?_, by omega, Nat.zero_le _, by omega, ?_⟩
        · rw [dataLoop_nil, if_pos hlt]
          simp
        · constructor
          · intro h'
            exact absurd h' (by simp)
          · intro h'
            omega
      · refine ⟨Status.Done, 0, 0, ?_, by omega, Nat.zero_le _, by omega,
          ⟨fun _ => by omega, fun _ => rfl⟩⟩
        rw [dataLoop_nil, if_neg hlt]
        simp
  | cons ev rest ih =>
      by_cases hlt : pp.data.length < packetSize
      · rcases receiveChunk_cons_cases (min (packetSize - pp.data.length) 1024) s ev rest with
          ⟨c, hc0, hcn, hcs, hceq⟩ | ⟨st0, hceq⟩
        · have hcls : c.length ≤ s.length := by
            have hl := congrArg List.length hcs
            rw [List.length_take] at hl
            omega
          have hcle : c.length ≤ packetSize - pp.data.length := by omega
          have hlen' : (pp.data ++ c).length ≤ packetSize := by
            simp only [List.length_append]
            omega
          obtain ⟨st, b, j, heq, hb, hbs, hj, hiff⟩ :=
            ih ⟨pp.sizeBytes, pp.data ++ c⟩ (s.drop c.length) hlen'
          refine ⟨st, c.length + b, j + 1, ?_, ?_, ?_, ?_, ?_⟩
          · rw [dataLoop_cons, if_pos hlt, hceq]
            simp only [if_pos rfl]
            rw [heq]
            have htk : pp.data ++ c ++ (s.drop c.length).take b
                = pp.data ++ s.take (c.length + b) := by
              rw [List.take_add, List.append_assoc, ← hcs]
            have hdr : (s.drop c.length).drop b = s.drop (c.length + b) := by
              rw [List.drop_drop]
            simp [htk, hdr]
          · simp only [List.length_append] at hb
            omega
          · simp only [List.length_drop] at hbs
            omega
          · simp only [List.length_cons]
            omega
          · simp only [List.length_append] at hiff
            rw [hiff]
            omega
        · by_cases hd : st0 = Status.Done
          · subst hd
            obtain ⟨st, b, j, heq, hb, hbs, hj, hiff⟩ := ih pp s hL
            refine ⟨st, b, j + 1, ?_, hb, hbs,
              by simp only [List.length_cons]; omega, hiff⟩
            rw [dataLoop_cons, if_pos hlt, hceq]
            simp only [if_pos rfl, List.append_nil]
            rw [show ({ pp with data := pp.data } : PendingPacket) = pp from rfl]
            rw [heq]
            simp
          · refine ⟨st0, 0, 1, ?_, by omega, Nat.zero_le _, by simp, ?_⟩
            · rw [dataLoop_cons, if_pos hlt, hceq]
              simp [hd]
            · exact ⟨fun h' => absurd h' hd, fun h' => absurd h' (by omega)⟩
      · refine ⟨Status.Done, 0, 0, ?_, by omega, Nat.zero_le _, by simp,
          ⟨fun _ => by omega, fun _ => rfl⟩⟩
        rw [dataLoop_cons, if_neg hlt]
        simp

/- Progress of the receive loops over schedules made only of data-delivery
events of at least one byte: every consumed event contributes at least one
byte, and the loop either completes its field or consumes the whole
schedule and reports NotReady. -/

theorem sizeLoop_avail (ks : List Nat) (pp : PendingPacket) (s : List Nat)
    (hk : ∀ k ∈ ks, 1 ≤ k) (h4 : pp.sizeBytes.length ≤ 4)
    (hs : 4 - pp.sizeBytes.length ≤ s.length) :
    ∃ st b j, sizeLoop pp s (ks.map RecvEvent.avail) =
        (st, ⟨pp.sizeBytes ++ s.take b, pp.data⟩, s.drop b, (ks.drop j).map RecvEvent.avail) ∧
      j ≤ b ∧ pp.sizeBytes.length + b ≤ 4 ∧
      ((st = Status.Done ∧ pp.sizeBytes.length + b = 4) ∨
       (st = Status.NotReady ∧ j = ks.length ∧ ks.length ≤ b ∧
         pp.sizeBytes.length + b < 4)) := by
  induction ks generalizing pp s with
  | nil =>
      by_cases hlt : pp.sizeBytes.length < 4
      · refine ⟨Status.NotReady, 0, 0, ?_, le_rfl, by omega,
          Or.inr ⟨rfl, rfl, by simp, by omega⟩⟩
        simp only [List.map_nil, List.drop_nil]
        rw [sizeLoop_nil, if_pos hlt]
        simp
      · refine ⟨Status.Done, 0, 0, ?_, le_rfl, by omega, Or.inl ⟨rfl, by omega⟩⟩
        simp only [List.map_nil, List.drop_nil]
        rw [sizeLoop_nil, if_neg hlt]
        simp
  | cons k ks ih =>
      by_cases hlt : pp.sizeBytes.length < 4
      · have hk1 : 1 ≤ k := hk k (List.mem_cons_self _ _)
        have hn : 1 ≤ 4 - pp.sizeBytes.length := by omega
        have hsne : s ≠ [] := by
          intro hnil
          rw [hnil] at hs
          simp at hs
          omega
        obtain ⟨c, hc0, hcn, hcs, hceq⟩ :=
          receiveChunk_avail_done (4 - pp.sizeBytes.length) k s (ks.map RecvEvent.avail)
            hk1 hn hsne
        have hk' : ∀ k' ∈ ks, 1 ≤ k' := fun k' hm => hk k' (List.mem_cons_of_mem _ hm)
        have h4' : (pp.sizeBytes ++ c).length ≤ 4 := by
          simp only [List.length_append]
          omega
        have hs' : 4 - (pp.sizeBytes ++ c).length ≤ (s.drop c.length).length := by
          simp only [List.length_append, List.length_drop]
          omega
        obtain ⟨st, b, j, heq, hjb, hb4, hcases⟩ :=
          ih ⟨pp.sizeBytes ++ c, pp.data⟩ (s.drop c.length) hk' h4' hs'
        refine ⟨st, c.length + b, j + 1, ?_, by omega, ?_, ?_⟩
        · rw [List.map_cons, sizeLoop_cons, if_pos hlt, hceq]
          simp only [if_pos rfl]
          rw [heq]
          have htk : pp.sizeBytes ++ c ++ (s.drop c.length).take b
              = pp.sizeBytes ++ s.take (c.length + b) := by
            rw [List.take_add, List.append_assoc, ← hcs]
          have hdr : (s.drop c.length).drop b = s.drop (c.length + b) := by
            rw [List.drop_drop]
          simp [htk, hdr]
        · simp only [List.length_append] at hb4
          omega
        · rcases hcases with ⟨hst, hcomp⟩ | ⟨hst, hj, hkb, hincomp⟩
          · refine Or.inl ⟨hst, ?_⟩
            simp only [List.length_append] at hcomp
            omega
          · refine Or.inr ⟨hst, by simp [hj], ?_, ?_⟩
            · simp only [List.length_cons]
              omega
            · simp only [List.length_append] at hincomp
              omega
      · refine ⟨Status.Done, 0, 0, ?_, le_rfl, by omega, Or.inl ⟨rfl, by omega⟩⟩
        rw [List.map_cons, sizeLoop_cons, if_neg hlt]
        simp

theorem dataLoop_avail (packetSize : Nat) (ks : List Nat) (pp : PendingPacket)
    (s : List Nat) (hk : ∀ k ∈ ks, 1 ≤ k) (hL : pp.data.length ≤ packetSize)
    (hs : packetSize - pp.data.length ≤ s.length) :
    ∃ st b j, dataLoop packetSize pp s (ks.map RecvEvent.avail) =
        (st, ⟨pp.sizeBytes, pp.data ++ s.take b⟩, s.drop b, (ks.drop j).map RecvEvent.avail) ∧
      j ≤ b ∧ pp.data.length + b ≤ packetSize ∧
      ((st = Status.Done ∧ pp.data.length + b = packetSize) ∨
       (st = Status.NotReady ∧ j = ks.length ∧ ks.length ≤ b ∧
         pp.data.length + b < packetSize)) := by
  induction ks generalizing pp s with
  | nil =>
      by_cases hlt : pp.data.length < packetSize
      · refine ⟨Status.NotReady, 0, 0, ?_, le_rfl, by omega,
          Or.inr ⟨rfl, rfl, by simp, by omega⟩⟩
        simp only [List.map_nil, List.drop_nil]
        rw [dataLoop_nil, if_pos hlt]
        simp
      · refine ⟨Status.Done, 0, 0, ?_, le_rfl, by omega, Or.inl ⟨rfl, by omega⟩⟩
        simp only [List.map_nil, List.drop_nil]
        rw [dataLoop_nil, if_neg hlt]
        simp
  | cons k ks ih =>
      by_cases hlt : pp.data.length < packetSize
      · have hk1 : 1 ≤ k := hk k (List.mem_cons_self _ _)
        have hn : 1 ≤ min (packetSize - pp.data.length) 1024 := by omega
        have hsne : s ≠ [] := by
          intro hnil
          rw [hnil] at hs
          simp at hs
          omega
        obtain ⟨c, hc0, hcn, hcs, hceq⟩ :=
          receiveChunk_avail_done (min (packetSize - pp.data.length) 1024) k s
            (ks.map RecvEvent.avail) hk1 hn hsne
        have hcle : c.length ≤ packetSize - pp.data.length := by omega
        have hk' : ∀ k' ∈ ks, 1 ≤ k' := fun k' hm => hk k' (List.mem_cons_of_mem _ hm)
        have hL' : (pp.data ++ c).length ≤ packetSize := by
          simp only [List.length_append]
          omega
        have hs' : packetSize - (pp.data ++ c).length ≤ (s.drop c.length).length := by
          simp only [List.length_append, List.length_drop]
          omega
        obtain ⟨st, b, j, heq, hjb, hbL, hcases⟩ :=
          ih ⟨pp.sizeBytes, pp.data ++ c⟩ (s.drop c.length) hk' hL' hs'
        refine ⟨st, c.length + b, j + 1, ?_, by omega, ?_, ?_⟩
        · rw [List.map_cons, dataLoop_cons, if_pos hlt, hceq]
          simp only [if_pos rfl]
          rw [heq]
          have htk : pp.data ++ c ++ (s.drop c.length).take b
              = pp.data ++ s.take (c.length + b) := by
            rw [List.take_add, List.append_assoc, ← hcs]
          have hdr : (s.drop c.length).drop b = s.drop (c.length + b) := by
            rw [List.drop_drop]
          simp [htk, hdr]
        · simp only [List.length_append] at hbL
          omega
        · rcases hcases with ⟨hst, hcomp⟩ | ⟨hst, hj, hkb, hincomp⟩
          · refine Or.inl ⟨hst, ?_⟩
            simp only [List.length_append] at hcomp
            omega
          · refine Or.inr ⟨hst, by simp [hj], ?_, ?_⟩
            · simp only [List.length_cons]
              omega
            · simp only [List.length_append] at hincomp
              omega
      · refine ⟨Status.Done, 0, 0, ?_, le_rfl, by omega, Or.inl ⟨rfl, by omega⟩⟩
        rw [List.map_cons, dataLoop_cons, if_neg hlt]
        simp

/- Composition lemmas for a whole receivePacket call. -/

theorem receivePacket_eq_abort1 (pkt : Packet) (pp : PendingPacket) (s : List Nat)
    (evs : List RecvEvent) (st1 : Status) (pp1 : PendingPacket) (s1 : List Nat)
    (e1 : List RecvEvent)
    (h : sizeLoop pp s evs = (st1, pp1, s1, e1)) (hne : st1 ≠ Status.Done) :
    receivePacket pkt pp s evs = (st1, packetClear pkt, pp1, s1, e1) := by
  unfold receivePacket
  rw [h]
  simp [hne]

theorem receivePacket_eq_done (pkt : Packet) (pp : PendingPacket) (s : List Nat)
    (evs : List RecvEvent) (pp1 : PendingPacket) (s1 : List Nat) (e1 : List RecvEvent)
    (st2 : Status) (pp2 : PendingPacket) (s2 : List Nat) (e2 : List RecvEvent)
    (h1 : sizeLoop pp s evs = (Status.Done, pp1, s1, e1))
    (h2 : dataLoop (ntohlBytes pp1.sizeBytes) pp1 s1 e1 = (st2, pp2, s2, e2)) :
    receivePacket pkt pp s evs =
      if st2 ≠ Status.Done then (st2, packetClear pkt, pp2, s2, e2)
      else (Status.Done,
            (if pp2.data ≠ [] then packetOnReceive (packetClear pkt) pp2.data
             else packetClear pkt),
            emptyPending, s2, e2) := by
  unfold receivePacket
  rw [h1]
  simp only [ne_eq, not_true_eq_false, if_false, ite_false, reduceIte]
  rw [h2]

theorem receiveMulti_cons (pkt : Packet) (pp : PendingPacket) (s : List Nat)
    (evs : List RecvEvent) (scheds : List (List RecvEvent)) :
    receiveMulti pkt pp s (evs :: scheds) =
      (if (receivePacket pkt pp s evs).1 = Status.Done then
        (Status.Done, (receivePacket pkt pp s evs).2.1,
         (receivePacket pkt pp s evs).2.2.1, (receivePacket pkt pp s evs).2.2.2.1)
      else
        receiveMulti (receivePacket pkt pp s evs).2.1 (receivePacket pkt pp s evs).2.2.1
          (receivePacket pkt pp s evs).2.2.2.1 scheds) := by
  rcases hr : receivePacket pkt pp s evs with ⟨st, pkt', pp', s', e'⟩
  rw [receiveMulti.eq_def]
  simp [hr]

/- One receivePacket call against a schedule of positive data deliveries:
either the whole message completes and is handed to the packet, or the
schedule is exhausted, the call reports NotReady, and the reassembly
state has absorbed at least one stream byte per consumed event. -/

theorem receivePacket_step (payload : List Nat) (h32 : payload.length < 2 ^ 32)
    (pkt : Packet) (pp : PendingPacket) (s : List Nat) (ks : List Nat)
    (hk : ∀ k ∈ ks, 1 ≤ k)
    (hinv : msgInv payload pp s)
    (hincomp : pp.sizeBytes.length + pp.data.length < 4 + payload.length) :
    (∃ s' e', receivePacket pkt pp s (ks.map RecvEvent.avail) =
        (Status.Done, { pkt with payload := payload }, emptyPending, s', e')) ∨
    (∃ pp' s', receivePacket pkt pp s (ks.map RecvEvent.avail) =
        (Status.NotReady, packetClear pkt, pp', s', []) ∧
      msgInv payload pp' s' ∧
      pp.sizeBytes.length + pp.data.length + ks.length ≤
        pp'.sizeBytes.length + pp'.data.length ∧
      pp'.sizeBytes.length + pp'.data.length < 4 + payload.length) := by
  obtain ⟨hcat, hpb4, hdata⟩ := hinv
  have hlencat : pp.sizeBytes.length + pp.data.length + s.length = 4 + payload.length := by
    have h := congrArg List.length hcat
    simp only [List.length_append, htonlBytes_length] at h
    omega
  have htake4 : (htonlBytes payload.length ++ payload).take 4 = htonlBytes payload.length := by
    have h4 : (4 : Nat) = (htonlBytes payload.length).length := (htonlBytes_length _).symm
    rw [h4, List.take_left]
  have hs1 : 4 - pp.sizeBytes.length ≤ s.length := by
    rcases Nat.lt_or_ge pp.sizeBytes.length 4 with hc | hc
    · have hd0 : pp.data.length = 0 := by rw [hdata hc]; rfl
      omega
    · omega
  obtain ⟨st1, b1, j1, heq1, hjb1, hb41, hcase1⟩ := sizeLoop_avail ks pp s hk hpb4 hs1
  have hb1s : b1 ≤ s.length := by omega
  have htb1 : (s.take b1).length = b1 := by
    rw [List.length_take]
    omega
  rcases hcase1 with ⟨hst1, hcomp1⟩ | ⟨hst1, hj1, hkb1, hincomp1⟩
  · -- the size field is complete after the size loop
    subst hst1
    have hpref : pp.sizeBytes ++ s.take b1 = htonlBytes payload.length := by
      rcases Nat.lt_or_ge pp.sizeBytes.length 4 with hc | hc
      · have hdnil : pp.data = [] := hdata hc
        rw [hdnil] at hcat
        simp only [List.append_nil] at hcat
        calc pp.sizeBytes ++ s.take b1
            = (pp.sizeBytes ++ s).take (pp.sizeBytes.length + b1) :=
              (List.take_append b1).symm
          _ = (htonlBytes payload.length ++ payload).take 4 := by rw [hcat, hcomp1]
          _ = htonlBytes payload.length := htake4
      · have hb10 : b1 = 0 := by omega
        subst hb10
        simp only [List.take_zero, List.append_nil]
        have h1 : pp.sizeBytes = (pp.sizeBytes ++ (pp.data ++ s)).take pp.sizeBytes.length :=
          (List.take_left _ _).symm
        rw [h1, ← List.append_assoc, hcat]
        rw [show pp.sizeBytes.length = 4 by omega]
        exact htake4
    have hL : ntohlBytes (pp.sizeBytes ++ s.take b1) = payload.length := by
      rw [hpref, ntohl_htonl_of_lt _ h32]
    have hsuffix : pp.data ++ s.drop b1 = payload := by
      have hfull : htonlBytes payload.length ++ (pp.data ++ s.drop b1)
          = htonlBytes payload.length ++ payload := by
        conv_rhs => rw [← hcat]
        rw [← hpref]
        rcases Nat.lt_or_ge pp.sizeBytes.length 4 with hc | hc
        · have hdnil : pp.data = [] := hdata hc
          rw [hdnil]
          simp only [List.append_nil, List.nil_append]
          rw [List.append_assoc, List.take_append_drop]
        · have hb10 : b1 = 0 := by omega
          subst hb10
          simp only [List.take_zero, List.append_nil, List.drop_zero]
          rw [← List.append_assoc]
      exact List.append_cancel_left hfull
    have hdlen : pp.data.length + (s.drop b1).length = payload.length := by
      have h := congrArg List.length hsuffix
      simp only [List.length_append] at h
      exact h
    have hk' : ∀ k' ∈ ks.drop j1, 1 ≤ k' := fun k' hm => hk k' (List.drop_subset _ _ hm)
    obtain ⟨st2, b2, j2, heq2, hjb2, hbL2, hcase2⟩ :=
      dataLoop_avail payload.length (ks.drop j1)
        ⟨pp.sizeBytes ++ s.take b1, pp.data⟩ (s.drop b1) hk'
        (by show pp.data.length ≤ payload.length; omega)
        (by show payload.length - pp.data.length ≤ (s.drop b1).length; omega)
    have hbL2' : pp.data.length + b2 ≤ payload.length := hbL2
    have heq2' : dataLoop
        (ntohlBytes ((⟨pp.sizeBytes ++ s.take b1, pp.data⟩ : PendingPacket).sizeBytes))
        ⟨pp.sizeBytes ++ s.take b1, pp.data⟩ (s.drop b1) ((ks.drop j1).map RecvEvent.avail) =
        (st2, ⟨pp.sizeBytes ++ s.take b1, pp.data ++ (s.drop b1).take b2⟩,
         (s.drop b1).drop b2, ((ks.drop j1).drop j2).map RecvEvent.avail) := by
      rw [show ntohlBytes ((⟨pp.sizeBytes ++ s.take b1, pp.data⟩ : PendingPacket).sizeBytes)
          = payload.length from hL]
      exact heq2
    have hb2s : b2 ≤ (s.drop b1).length := by omega
    have hdrop1 : (s.drop b1).length = payload.length - pp.data.length := by omega
    have htb2 : ((s.drop b1).take b2).length = b2 := by
      rw [List.length_take]
      omega
    rcases hcase2 with ⟨hst2, hcomp2⟩ | ⟨hst2, hj2, hkb2, hincomp2⟩
    · -- payload complete: the message is delivered
      subst hst2
      have hcomp2' : pp.data.length + b2 = payload.length := hcomp2
      left
      have hdel : pp.data ++ (s.drop b1).take b2 = payload := by
        have h1 : (pp.data ++ s.drop b1).take (pp.data.length + b2)
            = pp.data ++ (s.drop b1).take b2 := List.take_append b2
        rw [← h1, hsuffix, hcomp2', List.take_length]
      refine ⟨(s.drop b1).drop b2, ((ks.drop j1).drop j2).map RecvEvent.avail, ?_⟩
      rw [receivePacket_eq_done pkt pp s _ _ _ _ _ _ _ _ heq1 heq2']
      simp only [ne_eq, not_true_eq_false, if_false, ite_false, reduceIte]
      rw [hdel]
      by_cases hpe : payload = []
      · simp [hpe, packetClear]
      · simp [hpe, packetOnReceive, packetClear]
    · -- schedule exhausted during the payload phase
      subst hst2
      have hincomp2' : pp.data.length + b2 < payload.length := hincomp2
      right
      have hj2' : ((ks.drop j1).drop j2).map RecvEvent.avail = [] := by
        rw [hj2, List.drop_length, List.map_nil]
      rw [hj2'] at heq2'
      refine ⟨⟨pp.sizeBytes ++ s.take b1, pp.data ++ (s.drop b1).take b2⟩,
        (s.drop b1).drop b2, ?_, ⟨?_, ?_, ?_⟩, ?_, ?_⟩
      · rw [receivePacket_eq_done pkt pp s _ _ _ _ _ _ _ _ heq1 heq2']
        simp
      · show (pp.sizeBytes ++ s.take b1) ++ (pp.data ++ (s.drop b1).take b2) ++
            (s.drop b1).drop b2 = htonlBytes payload.length ++ payload
        rw [hpref]
        rw [List.append_assoc, List.append_assoc, List.take_append_drop, hsuffix]
      · show (pp.sizeBytes ++ s.take b1).length ≤ 4
        simp only [List.length_append, htb1]
        omega
      · intro hlt4
        exfalso
        simp only [List.length_append, htb1] at hlt4
        omega
      · show pp.sizeBytes.length + pp.data.length + ks.length ≤
          (pp.sizeBytes ++ s.take b1).length + (pp.data ++ (s.drop b1).take b2).length
        have hldrop : (ks.drop j1).length = ks.length - j1 := by
          rw [List.length_drop]
        simp only [List.length_append, htb1, htb2]
        omega
      · show (pp.sizeBytes ++ s.take b1).length + (pp.data ++ (s.drop b1).take b2).length
            < 4 + payload.length
        simp only [List.length_append, htb1, htb2]
        omega
  · -- schedule exhausted during the size phase
    subst hst1
    right
    have hc : pp.sizeBytes.length < 4 := by omega
    have hdnil : pp.data = [] := hdata hc
    have hj1' : (ks.drop j1).map RecvEvent.avail = [] := by
      rw [hj1, List.drop_length, List.map_nil]
    rw [hj1'] at heq1
    refine ⟨⟨pp.sizeBytes ++ s.take b1, pp.data⟩, s.drop b1, ?_, ⟨?_, ?_, ?_⟩, ?_, ?_⟩
    · exact receivePacket_eq_abort1 pkt pp s _ _ _ _ _ heq1 (by simp)
    · show (pp.sizeBytes ++ s.take b1) ++ pp.data ++ s.drop b1
          = htonlBytes payload.length ++ payload
      rw [hdnil] at hcat ⊢
      simp only [List.append_nil] at hcat ⊢
      rw [List.append_assoc, List.take_append_drop]
      exact hcat
    · show (pp.sizeBytes ++ s.take b1).length ≤ 4
      simp only [List.length_append, htb1]
      omega
    · intro _
      exact hdnil
    · show pp.sizeBytes.length + pp.data.length + ks.length ≤
        (pp.sizeBytes ++ s.take b1).length + pp.data.length
      simp only [List.length_append, htb1]
      omega
    · show (pp.sizeBytes ++ s.take b1).length + pp.data.length < 4 + payload.length
      have hd0 : pp.data.length = 0 := by rw [hdnil]; rfl
      simp only [List.length_append, htb1]
      omega

/- The caller-side retry loop delivers the message once enough positive
data deliveries have been scheduled across the calls. -/

theorem receiveMulti_delivers (payload : List Nat) (h32 : payload.length < 2 ^ 32)
    (scheds : List (List Nat))
    (hk : ∀ ks ∈ scheds, ∀ k ∈ ks, 1 ≤ k) :
    ∀ pkt pp s, msgInv payload pp s →
      pp.sizeBytes.length + pp.data.length < 4 + payload.length →
      4 + payload.length ≤
        pp.sizeBytes.length + pp.data.length + (scheds.map List.length).sum →
      ∃ s', receiveMulti pkt pp s (scheds.map (fun ks => ks.map RecvEvent.avail)) =
        (Status.Done, { pkt with payload := payload }, emptyPending, s') := by
  induction scheds with
  | nil =>
      intro pkt pp s _ hincomp hcount
      simp only [List.map_nil, List.sum_nil] at hcount
      omega
  | cons ks scheds ih =>
      intro pkt pp s hinv hincomp hcount
      have hk1 : ∀ k ∈ ks, 1 ≤ k := hk ks (List.mem_cons_self _ _)
      have hkr : ∀ ks' ∈ scheds, ∀ k ∈ ks', 1 ≤ k :=
        fun ks' hm => hk ks' (List.mem_cons_of_mem _ hm)
      rcases receivePacket_step payload h32 pkt pp s ks hk1 hinv hincomp with
        ⟨s', e', hdone⟩ | ⟨pp', s', habort, hinv', hprog, hincomp'⟩
      · refine ⟨s', ?_⟩
        rw [List.map_cons, receiveMulti_cons, hdone]
        simp
      · rw [List.map_cons, receiveMulti_cons, habort]
        simp only []
        rw [if_neg (by simp)]
        have := ih hkr (packetClear pkt) pp' s' hinv' hincomp'
          (by simp only [List.map_cons, List.sum_cons] at hcount; omega)
        obtain ⟨s'', hfin⟩ := this
        refine ⟨s'', ?_⟩
        rw [hfin]
        rfl

/- A fresh packet sent against a schedule with enough capacity puts the
whole size-prefixed block on the wire. -/

theorem sendPacket_fresh (payload : List Nat) (ks : List Nat)
    (hsum : 4 + payload.length ≤ ks.sum) :
    ∃ evs', sendPacket ⟨payload, 0⟩ (ks.map SendEvent.accept) =
      (Status.Done, ⟨payload, 0⟩,
       htonlBytes (payload.length % 2 ^ 32) ++ payload, evs') := by
  have hlen : (htonlBytes (payload.length % 2 ^ 32) ++ payload).length
      = 4 + payload.length := by
    simp [List.length_append, htonlBytes_length]
  obtain ⟨evs', hloop⟩ := sendLoop_done_of_sum
    (htonlBytes (payload.length % 2 ^ 32) ++ payload) ks 0
    (by omega) (by omega)
  rw [List.drop_zero] at hloop
  refine ⟨evs', ?_⟩
  unfold sendPacket sendAll
  simp only [List.drop_zero]
  rw [if_neg (by simp only [hlen]; simp)]
  simp only [hloop]
  simp

/- Small bridging lemmas used by the claim theorems. -/

theorem receiveChunk_abort (n : Nat) (s : List Nat) (ev : RecvEvent)
    (rest : List RecvEvent) (st : Status) (bs : List Nat) (rs : RecvState)
    (h : receiveChunk false n ⟨s, ev :: rest⟩ = (st, bs, rs))
    (hne : st ≠ Status.Done) :
    bs = [] ∧ rs = ⟨s, rest⟩ := by
  rcases receiveChunk_cons_cases n s ev rest with ⟨c, hc0, _, _, hceq⟩ | ⟨st0, hceq⟩
  · rw [h] at hceq
    have hst : st = Status.Done := congrArg Prod.fst hceq
    exact absurd hst hne
  · rw [h] at hceq
    exact ⟨congrArg (fun x => x.2.1) hceq, congrArg (fun x => x.2.2) hceq⟩

theorem sizeLoop_preserves_data (events : List RecvEvent) (pp : PendingPacket)
    (s : List Nat) : (sizeLoop pp s events).2.1.data = pp.data := by
  induction events generalizing pp s with
  | nil =>
      rw [sizeLoop_nil]
      split <;> rfl
  | cons ev rest ih =>
      rw [sizeLoop_cons]
      split
      · split
        · exact ih _ _
        · rfl
      · rfl

theorem sendAll_sent_eq_wire (dataNull : Bool) (data : List Nat)
    (events : List SendEvent) :
    (sendAll dataNull data events).2.1 = (sendAll dataNull data events).2.2.1.length := by
  unfold sendAll
  split
  · rfl
  · have h := sendLoop_sent_eq_wire data 0 events
    omega

theorem sendPacket_eq (p : Packet) (events : List SendEvent) (st : Status)
    (sent : Nat) (wire : List Nat) (evs' : List SendEvent)
    (h : sendAll false
        ((htonlBytes (p.payload.length % 2 ^ 32) ++ p.payload).drop p.sendPos) events
      = (st, sent, wire, evs')) :
    sendPacket p events =
      (st, (if st = Status.Partial then { p with sendPos := p.sendPos + sent }
            else if st = Status.Done then { p with sendPos := 0 } else p),
       wire, evs') := by
  simp only [sendPacket, h]

/- Claim theorems. -/

/-- C5: for every connect call with a positive timeout, on every return
path the blocking flag when connect returns equals the flag in effect
before the call, and for a zero or negative timeout the blocking mode is
not modified at all (no setBlocking call is made). The first conjunct is
stated for every timeout, which subsumes both halves of the claim. -/
theorem connect_restores_blocking (b : Bool) (timeoutUs : Int) (env : ConnectEnv) :
    (connect b timeoutUs env).blocking = b ∧
    (timeoutUs ≤ 0 → (connect b timeoutUs env).setBlockingCalls = []) := by
  unfold connect
  by_cases ht : timeoutUs ≤ 0
  · rw [if_pos ht]
    cases env.attempt <;> exact ⟨rfl, fun _ => rfl⟩
  · rw [if_neg ht]
    cases env.attempt with
    | success => exact ⟨rfl, fun h => absurd h ht⟩
    | fail s =>
        refine ⟨?_, fun h => absurd h ht⟩
        by_cases hb : b <;> by_cases hs : s = Status.NotReady <;>
          by_cases hsel : env.selectPositive <;> by_cases hrem : env.remoteRetrievable <;>
          simp [hb, hs, hsel, hrem]

/-- C5 witness: a concrete zero-timeout call leaves the blocking flag
untouched and makes no setBlocking call. -/
theorem connect_restores_blocking_witness :
    (connect true 0 ⟨ConnectAttempt.fail Status.NotReady, true, true,
        Status.Error, Status.Error⟩).blocking = true ∧
    (connect true 0 ⟨ConnectAttempt.fail Status.NotReady, true, true,
        Status.Error, Status.Error⟩).setBlockingCalls = [] := by
  have h := connect_restores_blocking true 0
    ⟨ConnectAttempt.fail Status.NotReady, true, true, Status.Error, Status.Error⟩
  exact ⟨h.1, h.2 (by decide)⟩

/-- C6: the chunk receive primitive issues exactly one transport recv per
invocation (the head schedule event is consumed, the rest is returned
untouched) and maps the raw return: a strictly positive count is Done
with exactly those bytes, a zero return is Disconnected, and a negative
return is the status getErrorStatus() translated it to, with no bytes. -/
theorem receiveChunk_maps_raw_result (stream : List Nat) (size k : Nat) (s : Status)
    (rest : List RecvEvent) :
    (receiveChunk false size ⟨stream, RecvEvent.avail k :: rest⟩ =
      if 0 < ((stream.take size).take k).length then
        (Status.Done, (stream.take size).take k,
         ⟨stream.drop ((stream.take size).take k).length, rest⟩)
      else (Status.Disconnected, [], ⟨stream, rest⟩)) ∧
    receiveChunk false size ⟨stream, RecvEvent.close :: rest⟩ =
      (Status.Disconnected, [], ⟨stream, rest⟩) ∧
    receiveChunk false size ⟨stream, RecvEvent.errneg s :: rest⟩ =
      (s, [], ⟨stream, rest⟩) :=
  ⟨receiveChunk_avail size k stream rest, rfl, rfl⟩

/-- C9: the message receive operation clears the caller's packet at
entry, so whenever it returns a status other than Done the caller's
packet is the cleared packet with an empty payload; partial data survives
only in the connection's pending reassembly state. -/
theorem receive_clears_packet (pkt : Packet) (pp : PendingPacket) (s : List Nat)
    (evs : List RecvEvent)
    (h : (receivePacket pkt pp s evs).1 ≠ Status.Done) :
    (receivePacket pkt pp s evs).2.1 = packetClear pkt ∧
    (receivePacket pkt pp s evs).2.1.payload = [] := by
  rcases h1 : sizeLoop pp s evs with ⟨st1, pp1, s1, e1⟩
  by_cases hd1 : st1 = Status.Done
  · subst hd1
    rcases h2 : dataLoop (ntohlBytes pp1.sizeBytes) pp1 s1 e1 with ⟨st2, pp2, s2, e2⟩
    have heq := receivePacket_eq_done pkt pp s evs pp1 s1 e1 st2 pp2 s2 e2 h1 h2
    by_cases hd2 : st2 = Status.Done
    · rw [heq] at h
      simp [hd2] at h
    · rw [heq]
      simp [hd2, packetClear]
  · have heq := receivePacket_eq_abort1 pkt pp s evs st1 pp1 s1 e1 h1 hd1
    rw [heq]
    simp [packetClear]

/-- C9 witness: a concrete aborted receive returns the cleared packet. -/
theorem receive_clears_packet_witness :
    (receivePacket ⟨[5, 6], 3⟩ emptyPending [] []).2.1 = packetClear ⟨[5, 6], 3⟩ ∧
    (receivePacket ⟨[5, 6], 3⟩ emptyPending [] []).2.1.payload = [] :=
  receive_clears_packet ⟨[5, 6], 3⟩ emptyPending [] [] (by decide)

/-- C10: the raw chunk receive rejects only a null destination buffer as
Error without touching the transport; a zero capacity with a valid buffer
still issues the recv call (the head event is consumed), and because the
zero-byte raw return is mapped to Disconnected, the call reports
Disconnected even though the peer has not closed (the consumed event is a
data delivery, not a close). -/
theorem null_and_zero_capacity_receive (size k : Nat) (stream : List Nat)
    (st : RecvState) (rest : List RecvEvent) :
    receiveChunk true size st = (Status.Error, [], st) ∧
    receiveChunk false 0 ⟨stream, RecvEvent.avail k :: rest⟩ =
      (Status.Disconnected, [], ⟨stream, rest⟩) := by
  refine ⟨rfl, ?_⟩
  rw [receiveChunk_avail]
  simp

/-- C2: at every reassembly state, in both the size phase and the payload
phase, a chunk receive that returns a status other than Done makes the
whole message receive return that same status immediately, with the
pending state, the stream and the caller-visible packet exactly as they
were when that chunk was issued (the failing chunk consumes its transport
event but contributes nothing) — a self-loop of the reassembly machine,
so a later call resumes with no byte lost or duplicated. -/
theorem receive_abort_self_loop (pkt : Packet) (pp qq : PendingPacket)
    (s t : List Nat) (ev ev2 : RecvEvent) (rest rest2 : List RecvEvent)
    (st st2 : Status) (bs bs2 : List Nat) (rs rs2 : RecvState) :
    (pp.sizeBytes.length < 4 →
      receiveChunk false (4 - pp.sizeBytes.length) ⟨s, ev :: rest⟩ = (st, bs, rs) →
      st ≠ Status.Done →
      receivePacket pkt pp s (ev :: rest) = (st, packetClear pkt, pp, s, rest)) ∧
    (qq.sizeBytes.length = 4 →
      qq.data.length < ntohlBytes qq.sizeBytes →
      receiveChunk false (min (ntohlBytes qq.sizeBytes - qq.data.length) 1024)
          ⟨t, ev2 :: rest2⟩ = (st2, bs2, rs2) →
      st2 ≠ Status.Done →
      receivePacket pkt qq t (ev2 :: rest2) = (st2, packetClear pkt, qq, t, rest2)) := by
  constructor
  · intro h4 hc hne
    obtain ⟨hbs, hrs⟩ := receiveChunk_abort _ _ _ _ _ _ _ hc hne
    subst hbs
    subst hrs
    have hsl : sizeLoop pp s (ev :: rest) = (st, pp, s, rest) := by
      rw [sizeLoop_cons, if_pos h4, hc]
      simp [hne]
    exact receivePacket_eq_abort1 pkt pp s _ _ _ _ _ hsl hne
  · intro h4 hlt hc hne
    obtain ⟨hbs, hrs⟩ := receiveChunk_abort _ _ _ _ _ _ _ hc hne
    subst hbs
    subst hrs
    have hsl : sizeLoop qq t (ev2 :: rest2) = (Status.Done, qq, t, ev2 :: rest2) := by
      rw [sizeLoop_cons, if_neg (by omega)]
    have hdl : dataLoop (ntohlBytes qq.sizeBytes) qq t (ev2 :: rest2)
        = (st2, qq, t, rest2) := by
      rw [dataLoop_cons, if_pos hlt, hc]
      simp [hne]
    rw [receivePacket_eq_done pkt qq t _ _ _ _ _ _ _ _ hsl hdl]
    simp [hne]

/-- C2 witness: two concrete aborts, one in the size phase (transport
error) and one in the payload phase (orderly close), each surfacing the
chunk status and leaving the pending state, stream and packet intact. -/
theorem receive_abort_self_loop_witness :
    (receivePacket emptyPacket emptyPending [1, 2] [RecvEvent.errneg Status.Error]
      = (Status.Error, packetClear emptyPacket, emptyPending, [1, 2], [])) ∧
    (receivePacket emptyPacket ⟨[0, 0, 0, 5], [7]⟩ [9] [RecvEvent.close]
      = (Status.Disconnected, packetClear emptyPacket, ⟨[0, 0, 0, 5], [7]⟩, [9], [])) := by
  have h := receive_abort_self_loop emptyPacket emptyPending ⟨[0, 0, 0, 5], [7]⟩
    [1, 2] [9] (RecvEvent.errneg Status.Error) RecvEvent.close [] []
    Status.Error Status.Disconnected [] [] ⟨[1, 2], []⟩ ⟨[9], []⟩
  exact ⟨h.1 (by decide) (by decide) (by decide),
         h.2 (by decide) (by decide) (by decide) (by decide)⟩

/-- C3: the raw send reports Partial exactly on a would-block error after
at least one byte went out in the call and NotReady on a would-block with
zero bytes (first conjunct, at any mid-loop progress, for any status
getErrorStatus can produce); a Partial result always has strictly
positive but incomplete progress (second conjunct); and the packet send
path advances the resume offset by exactly the number of bytes put on the
wire on Partial, resets it on Done, and leaves the packet untouched on
any other status (third conjunct). -/
theorem send_partial_accounting (data : List Nat) (sent : Nat) (s : Status)
    (evs : List SendEvent) (p : Packet)
    (hok : ∀ ev ∈ evs, SendEventOk ev) :
    (sent < data.length →
      sendLoop data sent (SendEvent.errneg s :: evs) =
        ((if s = Status.NotReady ∧ 0 < sent then Status.Partial else s),
         sent, [], evs)) ∧
    ((sendAll false data evs).1 = Status.Partial →
      0 < (sendAll false data evs).2.1 ∧ (sendAll false data evs).2.1 < data.length) ∧
    ((sendPacket p evs).2.1.sendPos =
      if (sendPacket p evs).1 = Status.Partial then
        p.sendPos + (sendPacket p evs).2.2.1.length
      else if (sendPacket p evs).1 = Status.Done then 0
      else p.sendPos) := by
  refine ⟨?_, ?_, ?_⟩
  · intro hlt
    rw [sendLoop_errneg, if_pos hlt]
    by_cases hcond : s = Status.NotReady ∧ 0 < sent
    · rw [if_pos hcond, if_pos hcond]
    · rw [if_neg hcond, if_neg hcond]
  · intro h
    unfold sendAll at h ⊢
    by_cases hnil : (false = true ∨ data.length = 0)
    · rw [if_pos hnil] at h
      simp at h
    · rw [if_neg hnil] at h ⊢
      exact sendLoop_partial_bounds data 0 evs hok h
  · rcases hr : sendAll false
        ((htonlBytes (p.payload.length % 2 ^ 32) ++ p.payload).drop p.sendPos) evs with
      ⟨st', sent', wire', evs''⟩
    have hsw := sendAll_sent_eq_wire false
      ((htonlBytes (p.payload.length % 2 ^ 32) ++ p.payload).drop p.sendPos) evs
    rw [hr] at hsw
    simp at hsw
    rw [sendPacket_eq p evs st' sent' wire' evs'' hr]
    by_cases h1 : st' = Status.Partial
    · simp [h1, hsw]
    · by_cases h2 : st' = Status.Done
      · simp [h1, h2]
      · simp [h1, h2]

/-- C3 witness: a send of three bytes whose transport accepts one byte and
then would block is Partial with one byte of progress, the packet resume
offset advances by exactly that byte, and a mid-loop transport error with
a non-NotReady status surfaces unchanged. -/
theorem send_partial_accounting_witness :
    (sendLoop [5, 6, 7] 1 (SendEvent.errneg Status.Error ::
        [SendEvent.accept 1, SendEvent.errneg Status.NotReady]) =
      ((if Status.Error = Status.NotReady ∧ 0 < 1 then Status.Partial else Status.Error),
       1, [], [SendEvent.accept 1, SendEvent.errneg Status.NotReady])) ∧
    (0 < (sendAll false [5, 6, 7]
        [SendEvent.accept 1, SendEvent.errneg Status.NotReady]).2.1 ∧
      (sendAll false [5, 6, 7]
        [SendEvent.accept 1, SendEvent.errneg Status.NotReady]).2.1 < [5, 6, 7].length) ∧
    ((sendPacket ⟨[9], 0⟩ [SendEvent.accept 1, SendEvent.errneg Status.NotReady]).2.1.sendPos =
      if (sendPacket ⟨[9], 0⟩ [SendEvent.accept 1,
          SendEvent.errneg Status.NotReady]).1 = Status.Partial then
        0 + (sendPacket ⟨[9], 0⟩ [SendEvent.accept 1,
          SendEvent.errneg Status.NotReady]).2.2.1.length
      else if (sendPacket ⟨[9], 0⟩ [SendEvent.accept 1,
          SendEvent.errneg Status.NotReady]).1 = Status.Done then 0
      else 0) := by
  have hok : ∀ ev ∈ [SendEvent.accept 1, SendEvent.errneg Status.NotReady], SendEventOk ev := by
    intro ev hm
    simp only [List.mem_cons, List.mem_singleton] at hm
    rcases hm with rfl | rfl | hm
    · trivial
    · exact Or.inl rfl
    · exact absurd hm (List.not_mem_nil _)
  have h := send_partial_accounting [5, 6, 7] 1 Status.Error
    [SendEvent.accept 1, SendEvent.errneg Status.NotReady] ⟨[9], 0⟩ hok
  exact ⟨h.1 (by decide), h.2.1 (by decide), h.2.2⟩

/-- C7: whenever the size loop completes with 4 size bytes that decode to
0 and no payload data is pending, the message receive returns Done right
there, delivering an empty payload, resetting the pending state to empty,
and consuming no payload-phase transport events (the schedule left by the
size loop is returned unchanged). -/
theorem zero_length_delivers_empty (pkt : Packet) (pp pp1 : PendingPacket)
    (s s1 : List Nat) (evs e1 : List RecvEvent)
    (hdata : pp.data = [])
    (hsl : sizeLoop pp s evs = (Status.Done, pp1, s1, e1))
    (hzero : ntohlBytes pp1.sizeBytes = 0) :
    receivePacket pkt pp s evs = (Status.Done, packetClear pkt, emptyPending, s1, e1) := by
  have hd1 : pp1.data = [] := by
    have h := sizeLoop_preserves_data evs pp s
    rw [hsl] at h
    rw [← hdata]
    exact h
  have hdl : dataLoop (ntohlBytes pp1.sizeBytes) pp1 s1 e1 = (Status.Done, pp1, s1, e1) := by
    rw [hzero]
    cases e1 with
    | nil => rw [dataLoop_nil, if_neg (by omega)]
    | cons e es => rw [dataLoop_cons, if_neg (by omega)]
  rw [receivePacket_eq_done pkt pp s _ _ _ _ _ _ _ _ hsl hdl]
  simp [hd1]

/-- C7 witness: a zero length prefix followed by an unread byte delivers
an empty payload at once, leaving the later byte in the stream and the
payload-phase schedule untouched. -/
theorem zero_length_delivers_empty_witness :
    receivePacket emptyPacket emptyPending [0, 0, 0, 0, 9] [RecvEvent.avail 4]
      = (Status.Done, packetClear emptyPacket, emptyPending, [9], []) :=
  zero_length_delivers_empty emptyPacket emptyPending ⟨[0, 0, 0, 0], []⟩
    [0, 0, 0, 0, 9] [9] [RecvEvent.avail 4] [] (by decide) (by decide) (by decide)

/-- C8: the reassembly-state invariant. A fresh pending state is
well-formed, and from any well-formed pending state, any message receive
call yields a well-formed pending state again (at most 4 size bytes, no
payload data before the size field is complete, data never beyond the
decoded length). Moreover either the pending state was reset to empty on
a full delivery, or the size bytes and the data were only appended to,
and the 4 size bytes of the current message were not modified at all. -/
theorem pending_invariant (pkt : Packet) (pp : PendingPacket) (s : List Nat)
    (evs : List RecvEvent) (hg : GoodPending pp) :
    GoodPending emptyPending ∧
    GoodPending (receivePacket pkt pp s evs).2.2.1 ∧
    ((receivePacket pkt pp s evs).2.2.1 = emptyPending ∨
      (pp.sizeBytes <+: (receivePacket pkt pp s evs).2.2.1.sizeBytes ∧
       pp.data <+: (receivePacket pkt pp s evs).2.2.1.data ∧
       (pp.sizeBytes.length = 4 →
         (receivePacket pkt pp s evs).2.2.1.sizeBytes = pp.sizeBytes))) := by
  obtain ⟨hg4, hgd, hgl⟩ := hg
  have hge : GoodPending emptyPending :=
    ⟨Nat.zero_le _, fun _ => rfl, fun _ => Nat.zero_le _⟩
  obtain ⟨st1, b1, j1, heq1, hb41, hb1s, hj1, hiff1⟩ := sizeLoop_shape evs pp s hg4
  have htb1 : (s.take b1).length = b1 := by
    rw [List.length_take]
    omega
  by_cases h1 : st1 = Status.Done
  · subst h1
    have hcomp1 : pp.sizeBytes.length + b1 = 4 := hiff1.mp rfl
    have hL1 : pp.data.length ≤ ntohlBytes (pp.sizeBytes ++ s.take b1) := by
      rcases Nat.lt_or_ge pp.sizeBytes.length 4 with hc | hc
      · rw [hgd hc]
        exact Nat.zero_le _
      · have hb10 : b1 = 0 := by omega
        subst hb10
        simp only [List.take_zero, List.append_nil]
        exact hgl (by omega)
    obtain ⟨st2, b2, j2, heq2, hbL2, hb2s, hj2, hiff2⟩ :=
      dataLoop_shape (ntohlBytes ((⟨pp.sizeBytes ++ s.take b1, pp.data⟩ :
        PendingPacket).sizeBytes)) (evs.drop j1) ⟨pp.sizeBytes ++ s.take b1, pp.data⟩
        (s.drop b1) hL1
    have hbL2' : pp.data.length + b2 ≤ ntohlBytes (pp.sizeBytes ++ s.take b1) := hbL2
    have htb2 : ((s.drop b1).take b2).length = b2 := by
      rw [List.length_take]
      omega
    by_cases h2 : st2 = Status.Done
    · subst h2
      rw [receivePacket_eq_done pkt pp s _ _ _ _ _ _ _ _ heq1 heq2]
      simp only [ne_eq, not_true_eq_false, if_false, ite_false, reduceIte]
      exact ⟨hge, hge, Or.inl trivial⟩
    · rw [receivePacket_eq_done pkt pp s _ _ _ _ _ _ _ _ heq1 heq2]
      rw [if_pos h2]
      refine ⟨hge, ⟨?_, ?_, ?_⟩, Or.inr ⟨?_, ?_, ?_⟩⟩
      · show (pp.sizeBytes ++ s.take b1).length ≤ 4
        simp only [List.length_append, htb1]
        omega
      · intro hlt4
        exfalso
        simp only [List.length_append, htb1] at hlt4
        omega
      · intro _
        show (pp.data ++ (s.drop b1).take b2).length
            ≤ ntohlBytes (pp.sizeBytes ++ s.take b1)
        simp only [List.length_append, htb2]
        omega
      · exact ⟨s.take b1, rfl⟩
      · exact ⟨(s.drop b1).take b2, rfl⟩
      · intro hc4
        show pp.sizeBytes ++ s.take b1 = pp.sizeBytes
        have hb10 : b1 = 0 := by omega
        subst hb10
        simp
  · rw [receivePacket_eq_abort1 pkt pp s _ _ _ _ _ heq1 h1]
    refine ⟨hge, ⟨?_, ?_, ?_⟩, Or.inr ⟨⟨s.take b1, rfl⟩, ⟨[], List.append_nil _⟩, ?_⟩⟩
    · show (pp.sizeBytes ++ s.take b1).length ≤ 4
      simp only [List.length_append, htb1]
      omega
    · intro hlt4
      show pp.data = []
      apply hgd
      simp only [List.length_append] at hlt4
      omega
    · intro hc4
      exfalso
      simp only [List.length_append, htb1] at hc4
      have : pp.sizeBytes.length + b1 = 4 := hc4
      exact h1 (hiff1.mpr this)
    · intro hc4
      have hb10 : b1 = 0 := by omega
      subst hb10
      show pp.sizeBytes ++ List.take 0 s = pp.sizeBytes
      simp

/-- C8 witness: starting from the well-formed empty pending state with no
transport activity, the call aborts NotReady and the pending state is the
still well-formed empty state. -/
theorem pending_invariant_witness :
    GoodPending emptyPending ∧
    GoodPending (receivePacket emptyPacket emptyPending [] []).2.2.1 ∧
    ((receivePacket emptyPacket emptyPending [] []).2.2.1 = emptyPending ∨
      (emptyPending.sizeBytes <+:
        (receivePacket emptyPacket emptyPending [] []).2.2.1.sizeBytes ∧
       emptyPending.data <+: (receivePacket emptyPacket emptyPending [] []).2.2.1.data ∧
       (emptyPending.sizeBytes.length = 4 →
         (receivePacket emptyPacket emptyPending [] []).2.2.1.sizeBytes
           = emptyPending.sizeBytes))) :=
  pending_invariant emptyPacket emptyPending [] []
    ⟨Nat.zero_le _, fun _ => rfl, fun _ => Nat.zero_le _⟩

/-- C4 (amended): for a connect call with a positive timeout whose raw
attempt reports in-progress, when the caller's prior mode was blocking,
the implementation waits on the readiness primitive exactly once with
exactly the caller's timeout (tv_sec, tv_usec decompose it without loss)
before returning, and on wait-success distinguishes connected from
refused by whether the remote address is retrievable. The original claim
said this happens regardless of the prior blocking mode; the code returns
immediately without waiting when the socket was non-blocking. -/
theorem connect_timeout_waits (timeoutUs : Int) (env : ConnectEnv)
    (hpos : 0 < timeoutUs)
    (hatt : env.attempt = ConnectAttempt.fail Status.NotReady) :
    (connect true timeoutUs env).selectCalls =
      [(timeoutUs / 1000000, timeoutUs % 1000000)] ∧
    (timeoutUs / 1000000) * 1000000 + timeoutUs % 1000000 = timeoutUs ∧
    (connect true timeoutUs env).status =
      (if env.selectPositive then
        (if env.remoteRetrievable then Status.Done else env.refusedStatus)
       else env.timeoutStatus) := by
  unfold connect
  rw [if_neg (by omega), hatt]
  refine ⟨?_, by omega, ?_⟩
  · by_cases hsel : env.selectPositive <;> by_cases hrem : env.remoteRetrievable <;>
      simp [hsel, hrem]
  · by_cases hsel : env.selectPositive <;> by_cases hrem : env.remoteRetrievable <;>
      simp [hsel, hrem]

/-- C4 witness: a concrete blocking-mode connect with a 2.5 second
timeout waits once with tv_sec = 2, tv_usec = 500000 and succeeds when
the wait reports writable and the remote address is retrievable. -/
theorem connect_timeout_waits_witness :
    (connect true 2500000 ⟨ConnectAttempt.fail Status.NotReady, true, true,
        Status.Error, Status.Error⟩).selectCalls = [(2, 500000)] ∧
    (connect true 2500000 ⟨ConnectAttempt.fail Status.NotReady, true, true,
        Status.Error, Status.Error⟩).status = Status.Done := by
  have h := connect_timeout_waits 2500000
    ⟨ConnectAttempt.fail Status.NotReady, true, true, Status.Error, Status.Error⟩
    (by decide) (by decide)
  refine ⟨?_, ?_⟩
  · rw [h.1]
    decide
  · rw [h.2.2]
    decide

/-- C4 counterexample: with a positive timeout but a caller in
non-blocking mode, the same in-progress attempt returns NotReady at once
and the readiness-wait primitive is never invoked, refuting the claim's
"regardless of the caller's prior blocking mode". -/
theorem connect_nonblocking_skips_wait :
    (connect false 1000000 ⟨ConnectAttempt.fail Status.NotReady, true, true,
        Status.Error, Status.Error⟩).selectCalls = [] ∧
    (connect false 1000000 ⟨ConnectAttempt.fail Status.NotReady, true, true,
        Status.Error, Status.Error⟩).status = Status.NotReady := by
  decide

/-- C1 (amended): for every payload of length L with 0 ≤ L < 2^32,
sending the message (4-byte big-endian length prefix plus payload,
through the raw send loop) and decoding the resulting wire bytes on the
peer through repeated message receive calls yields a delivered payload
byte-for-byte identical to the original, for every way the transport
fragments the bytes across send calls (any accept sizes with enough
total capacity) and across receive calls (any per-call schedules of
positive chunk deliveries with enough events, including one byte per
call). The original claim quantified over every L ≥ 0; at L ≥ 2^32 the
uint32 cast truncates the prefix, and the round trip fails. -/
theorem round_trip_delivers (payload : List Nat) (sendKs : List Nat)
    (scheds : List (List Nat))
    (h32 : payload.length < 2 ^ 32)
    (hsend : 4 + payload.length ≤ sendKs.sum)
    (hrecv : ∀ ks ∈ scheds, ∀ k ∈ ks, 1 ≤ k)
    (hcount : 4 + payload.length ≤ (scheds.map List.length).sum) :
    (sendPacket ⟨payload, 0⟩ (sendKs.map SendEvent.accept)).1 = Status.Done ∧
    ∃ s', receiveMulti emptyPacket emptyPending
        (sendPacket ⟨payload, 0⟩ (sendKs.map SendEvent.accept)).2.2.1
        (scheds.map (fun ks => ks.map RecvEvent.avail)) =
      (Status.Done, ⟨payload, 0⟩, emptyPending, s') := by
  obtain ⟨evs', hsnd⟩ := sendPacket_fresh payload sendKs hsend
  have hmod : payload.length % 2 ^ 32 = payload.length := Nat.mod_eq_of_lt h32
  constructor
  · rw [hsnd]
  · have hsnd' : (sendPacket ⟨payload, 0⟩ (sendKs.map SendEvent.accept)).2.2.1
        = htonlBytes payload.length ++ payload := by
      rw [hsnd, hmod]
    rw [hsnd']
    exact receiveMulti_delivers payload h32 scheds hrecv emptyPacket emptyPending
      (htonlBytes payload.length ++ payload)
      ⟨by show ([] : List Nat) ++ [] ++ (htonlBytes payload.length ++ payload)
            = htonlBytes payload.length ++ payload
          simp,
       by show ([] : List Nat).length ≤ 4
          simp,
       fun _ => rfl⟩
      (by show ([] : List Nat).length + ([] : List Nat).length < 4 + payload.length
          simp)
      (by show 4 + payload.length ≤
            ([] : List Nat).length + ([] : List Nat).length + (scheds.map List.length).sum
          simp
          omega)

/-- C1 witness: the three-byte payload [10, 20, 30] sent with transport
accepts of 2 then 5 bytes and received one byte per recv call across
seven separate receive invocations is delivered byte-for-byte. -/
theorem round_trip_delivers_witness :
    (sendPacket ⟨[10, 20, 30], 0⟩ ([2, 5].map SendEvent.accept)).1 = Status.Done ∧
    ∃ s', receiveMulti emptyPacket emptyPending
        (sendPacket ⟨[10, 20, 30], 0⟩ ([2, 5].map SendEvent.accept)).2.2.1
        ([[1], [1], [1], [1], [1], [1], [1]].map (fun ks => ks.map RecvEvent.avail)) =
      (Status.Done, ⟨[10, 20, 30], 0⟩, emptyPending, s') :=
  round_trip_delivers [10, 20, 30] [2, 5] [[1], [1], [1], [1], [1], [1], [1]]
    (by norm_num) (by norm_num) (by decide) (by norm_num)

theorem receivePacket_zero_prefix (pkt : Packet) (R : List Nat) :
    receivePacket pkt emptyPending ([0, 0, 0, 0] ++ R) [RecvEvent.avail 4]
      = (Status.Done, packetClear pkt, emptyPending, R, []) := by
  have hchunk : receiveChunk false 4 ⟨[0, 0, 0, 0] ++ R, [RecvEvent.avail 4]⟩
      = (Status.Done, [0, 0, 0, 0], ⟨R, []⟩) := by
    rw [receiveChunk_avail]
    have ht : (([0, 0, 0, 0] : List Nat) ++ R).take 4 = [0, 0, 0, 0] := by
      simp
    have hd : (([0, 0, 0, 0] : List Nat) ++ R).drop 4 = R := by
      simp
    rw [ht]
    simp [hd]
  have hsl : sizeLoop emptyPending ([0, 0, 0, 0] ++ R) [RecvEvent.avail 4]
      = (Status.Done, ⟨[0, 0, 0, 0], []⟩, R, []) := by
    rw [sizeLoop_cons, if_pos (by show ([] : List Nat).length < 4; simp)]
    rw [show (4 - emptyPending.sizeBytes.length) = 4 from rfl]
    rw [hchunk]
    simp only [if_pos rfl, if_true]
    rw [show (⟨emptyPending.sizeBytes ++ [0, 0, 0, 0], emptyPending.data⟩ :
        PendingPacket) = ⟨[0, 0, 0, 0], []⟩ from rfl]
    rw [sizeLoop_nil, if_neg (by simp)]
  have hdl : dataLoop (ntohlBytes ((⟨[0, 0, 0, 0], []⟩ : PendingPacket).sizeBytes))
      ⟨[0, 0, 0, 0], []⟩ R []
      = (Status.Done, ⟨[0, 0, 0, 0], []⟩, R, []) := by
    rw [show ntohlBytes ((⟨[0, 0, 0, 0], []⟩ : PendingPacket).sizeBytes) = 0 from rfl]
    rw [dataLoop_nil, if_neg (by simp)]
  have hrp := receivePacket_eq_done pkt emptyPending ([0, 0, 0, 0] ++ R)
    [RecvEvent.avail 4] ⟨[0, 0, 0, 0], []⟩ R [] Status.Done ⟨[0, 0, 0, 0], []⟩ R []
    hsl hdl
  simp only [ne_eq, not_true_eq_false, if_false, ite_false, reduceIte] at hrp
  rw [hrp]

/-- C1 counterexample: a payload of length exactly 2^32 is framed with a
truncated zero length prefix (the uint32 cast), so the peer's receive
completes with an empty delivered payload different from the original:
the round-trip identity of the claim fails at L = 2^32. -/
theorem round_trip_truncates_at_2pow32 :
    (sendPacket ⟨List.replicate (2 ^ 32) 0, 0⟩ ([2 ^ 32 + 4].map SendEvent.accept)).1
      = Status.Done ∧
    (receivePacket emptyPacket emptyPending
        (sendPacket ⟨List.replicate (2 ^ 32) 0, 0⟩
          ([2 ^ 32 + 4].map SendEvent.accept)).2.2.1
        [RecvEvent.avail 4]).1 = Status.Done ∧
    (receivePacket emptyPacket emptyPending
        (sendPacket ⟨List.replicate (2 ^ 32) 0, 0⟩
          ([2 ^ 32 + 4].map SendEvent.accept)).2.2.1
        [RecvEvent.avail 4]).2.1.payload = [] ∧
    List.replicate (2 ^ 32) (0 : Nat) ≠ [] := by
  have hlenR : (List.replicate (2 ^ 32) (0 : Nat)).length = 2 ^ 32 :=
    List.length_replicate _ _
  obtain ⟨evs', hsnd⟩ := sendPacket_fresh (List.replicate (2 ^ 32) 0) [2 ^ 32 + 4]
    (by rw [hlenR]; simp)
  have hmod : (List.replicate (2 ^ 32) (0 : Nat)).length % 2 ^ 32 = 0 := by
    rw [hlenR]
    exact Nat.mod_self _
  have hwire : (sendPacket ⟨List.replicate (2 ^ 32) 0, 0⟩
      ([2 ^ 32 + 4].map SendEvent.accept)).2.2.1
      = [0, 0, 0, 0] ++ List.replicate (2 ^ 32) 0 := by
    rw [hsnd, hmod]
    rfl
  refine ⟨by rw [hsnd], ?_, ?_, ?_⟩
  · rw [hwire, receivePacket_zero_prefix]
  · rw [hwire, receivePacket_zero_prefix]
    rfl
  · intro h
    have hlen := congrArg List.length h
    rw [hlenR] at hlen
    norm_num at hlen

end SfmlTcp
